import Mathlib

/-!
Verification of the live-stream mirroring pipeline in `miiguri-video.py`.

The script polls an M3U8 playlist, downloads `.ts` segments to the working
directory (atomic temp-write-then-rename), merges sorted segments in windows
of `MERGE_GROUP_SIZE` into `.mp4` artifacts via an external remux tool, and
delivers finished artifacts under a hold-back policy tracked in `sent.json`.

This file gives a shallow embedding of the script's data model and of each
operation the checked claims mention:
  * the filesystem is an association list from file names to file payloads;
  * external effects (HTTP fetches, the remux subprocess) are supplied as
    explicit outcome parameters, so each code path of the script becomes a
    branch of a total Lean function;
  * Python stdlib helpers used by `safe_ts_filename` (`urlparse`, `unquote`,
    `os.path.basename`, `hashlib.md5`) are opaque string-to-string
    parameters: every property proved about the naming function holds for
    all behaviours of those helpers.
-/

set_option maxHeartbeats 1000000

/-- A file's payload: its byte content (bytes as `Nat`s) and its
modification time (`os.path.getmtime`), in abstract integer seconds. -/
structure MFile where
  data : List Nat
  mtime : Int
deriving DecidableEq, Repr

/-- The working directory: an association list from file name to payload.
Key order is irrelevant to lookups; `writeFs` keeps keys unique. -/
abbrev Fs := List (String × MFile)

/-- Look up a file by name (first match). -/
def lookupFs : Fs → String → Option MFile
  | [], _ => none
  | (k, v) :: rest, n => if k = n then some v else lookupFs rest n

/-- `os.path.exists` on the modelled directory. -/
def existsFs (fs : Fs) (n : String) : Bool :=
  (lookupFs fs n).isSome

/-- `os.remove` (total: removing an absent name is the identity, matching
the script's `if os.path.exists(f): os.remove(f)` guards). -/
def removeFs : Fs → String → Fs
  | [], _ => []
  | (k, v) :: rest, n => if k = n then removeFs rest n else (k, v) :: removeFs rest n

/-- Create or overwrite a file, as an atomic visible step. -/
def writeFs (fs : Fs) (n : String) (f : MFile) : Fs :=
  (n, f) :: removeFs fs n

/-- `str.endswith` modelled on the underlying character list. -/
def endswith (s suffix : String) : Bool :=
  suffix.data.isSuffixOf s.data

/-- The names present in the directory (`os.listdir`). -/
def listdirFs (fs : Fs) : List String :=
  fs.map Prod.fst

/-- Constant `MERGE_GROUP_SIZE` from the script. -/
def MERGE_GROUP_SIZE : Nat := 5

/-- Constant `MERGE_IDLE_LIMIT` (seconds) from the script. -/
def MERGE_IDLE_LIMIT : Int := 30

/-- Constant `CHECK_INTERVAL` (seconds between playlist polls). -/
def CHECK_INTERVAL : Nat := 5

/-! ## Delivery tracker (`process_files`, lines 238-266) -/

/-- One value of the `sent.json` store: `{"first_seen": ..., "sent": ...}`. -/
structure SentRec where
  first_seen : Int
  sent : Bool
deriving DecidableEq, Repr

/-- The delivery-record store, keyed by `.mp4` artifact name. -/
abbrev SentStatus := List (String × SentRec)

/-- First-match lookup in the store (`status.get(f)` / `status[f]`). -/
def lookupStatus : SentStatus → String → Option SentRec
  | [], _ => none
  | (k, v) :: rest, n => if k = n then some v else lookupStatus rest n

/-- The first loop of `process_files`: every listed artifact not yet in the
store is inserted with `{"first_seen": now, "sent": False}`. -/
def registerFiles (status : SentStatus) (now : Int) (all_files : List String) : SentStatus :=
  all_files.foldl
    (fun st f => if (lookupStatus st f).isSome then st else st ++ [(f, ⟨now, false⟩)])
    status

/-- `not status.get(f, {}).get("sent", False)`. -/
def isUnsent (status : SentStatus) (f : String) : Bool :=
  match lookupStatus status f with
  | some r => !r.sent
  | none => true

/-- Age test applied to tail files: `now - status[f]["first_seen"] > 180`.
(Every tail file was inserted by `registerFiles`, so the `none` arm is
unreachable on the script's inputs.) -/
def holdbackElapsed (status : SentStatus) (now : Int) (f : String) : Bool :=
  match lookupStatus status f with
  | some r => decide (now - r.first_seen > 180)
  | none => false

/-- The selection portion of `process_files` (lines 239-259): given the
loaded store, the poll time and the sorted `.mp4` listing, the list
`files_to_send` in order. -/
def files_to_send (status0 : SentStatus) (now : Int) (all_files : List String) : List String :=
  let status := registerFiles status0 now all_files
  let unsent := all_files.filter (isUnsent status)
  let basetail :=
    if unsent.length > 5 then
      (unsent.take (unsent.length - 5), unsent.drop (unsent.length - 5))
    else
      (([] : List String), unsent)
  basetail.1 ++ basetail.2.filter (holdbackElapsed status now)

/-- Modelled from the spec's wording of the hold-back policy: the oldest
`count - 5` unsent artifacts are immediately eligible, and each of the
newest (up to) 5 is eligible exactly when its age exceeds 180 seconds;
with 5 or fewer unsent artifacts all of them are age-gated. Stated with
`Nat` subtraction, `take (count - 5)` is empty and `drop (count - 5)` is
everything when `count ≤ 5`. -/
def holdback_policy_spec (status0 : SentStatus) (now : Int) (all_files : List String) : List String :=
  let status := registerFiles status0 now all_files
  let unsent := all_files.filter (isUnsent status)
  unsent.take (unsent.length - 5)
    ++ (unsent.drop (unsent.length - 5)).filter (holdbackElapsed status now)

/-! ## Session controller stop conditions (lines 271-301) -/

/-- The hard session cap: `if elapsed > 9000: break`. -/
def SESSION_HARD_CAP : Int := 9000

/-- The idle cap: `if idle_time > 9000: break`. -/
def SESSION_IDLE_CAP : Int := 9000

/-- One iteration of the main loop, as observed by the idle tracker: did the
directory listing change, and what `time.time()` returned at line 288 when
it did. -/
structure IterObs where
  changed : Bool
  tChange : Int
deriving DecidableEq, Repr

/-- `last_new_file_time` after a sequence of loop iterations: initialized to
`start_time` and replaced by the current clock reading whenever the
directory snapshots differ. -/
def last_new_file_time (start : Int) (obs : List IterObs) : Int :=
  obs.foldl (fun last o => if o.changed then o.tChange else last) start

/-! ## Shutdown cleanup (lines 303-313) -/

/-- The `finally` cleanup loop: every file whose name ends in `.ts` or in
`.part` is removed from the working directory. -/
def session_cleanup (fs : Fs) : Fs :=
  (listdirFs fs).foldl
    (fun acc f => if endswith f ".ts" || endswith f ".part" then removeFs acc f else acc)
    fs

/-- The whole shutdown path: the cleanup runs both when the loop body
returned normally and when an exception propagated out of it (the `finally`
block), on whatever directory state the loop left behind. -/
def session_shutdown : Except Fs Fs → Fs
  | .ok fs => session_cleanup fs
  | .error fs => session_cleanup fs

/-! ## Segment naming (`safe_ts_filename`, lines 29-41) -/

/-- Python's `str.replace("..", "_")`: leftmost non-overlapping occurrences
of two consecutive dots become a single underscore. -/
def pyReplaceDotDot : List Char → List Char
  | c1 :: c2 :: rest =>
    if c1 = '.' ∧ c2 = '.' then '_' :: pyReplaceDotDot rest
    else c1 :: pyReplaceDotDot (c2 :: rest)
  | l => l

/-- Python's `str.replace("/", "_")`. -/
def pyReplaceSlash (l : List Char) : List Char :=
  l.map (fun c => if c = '/' then '_' else c)

/-- Whether a character list contains two consecutive dots (the
path-traversal sequence `..`). -/
def hasDotDot : List Char → Bool
  | c1 :: c2 :: rest => (c1 = '.' && c2 = '.') || hasDotDot (c2 :: rest)
  | _ => false

/-- The sanitizing tail of `safe_ts_filename`:
`filename.replace("..", "_").replace("/", "_")`. -/
def sanitizeName (s : String) : String :=
  String.mk (pyReplaceSlash (pyReplaceDotDot s.data))

/-- The decoded basename with a guaranteed `.ts` suffix: the value of
`filename` after line 35 of the script. The three function parameters model
the Python stdlib helpers `urlparse(...).path`, `os.path.basename` and
`unquote`, which live outside this repository; everything proved below
holds for all of their behaviours. -/
def preTsName (pyUrlparsePath pyBasename pyUnquote : String → String) (ts_url : String) : String :=
  let filename := pyUnquote (pyBasename (pyUrlparsePath ts_url))
  if endswith filename ".ts" then filename else filename ++ ".ts"

/-- `safe_ts_filename`: derive the decoded basename, force a `.ts` suffix,
fall back to `"segment_" + md5(url)[:8] + ".ts"` when longer than 80
characters, then sanitize `..` and `/`. `pyMd5Hex` models
`hashlib.md5(...).hexdigest()`. -/
def safe_ts_filename (pyUrlparsePath pyBasename pyUnquote pyMd5Hex : String → String)
    (ts_url : String) : String :=
  let filename := preTsName pyUrlparsePath pyBasename pyUnquote ts_url
  let filename2 :=
    if filename.length > 80 then
      "segment_" ++ String.mk ((pyMd5Hex ts_url).data.take 8) ++ ".ts"
    else filename
  sanitizeName filename2

/-! ## Batch merger (`merge_ts_to_mp4`, lines 113-199) -/

/-- The outcome of one window's external remux run (`subprocess.run` of
ffmpeg). `ok out` is a zero exit status that produced `out` at the output
path; `fail leftover` is a nonzero exit status, with `leftover` whatever
the tool left at the output path (ffmpeg writes the final path directly, so
a failed run may leave a partial file there); `raiseExc` is a Python
exception while opening the concat list or launching the process (the
script's `try`/`finally` has no `except`, so it propagates). -/
inductive RemuxOutcome where
  | ok (out : MFile)
  | fail (leftover : Option MFile)
  | raiseExc
deriving DecidableEq, Repr

/-- How one window of a scan was disposed of. -/
inductive GroupDisp where
  | skippedEmpty
  | skippedVanished
  | skippedIdle
  | skippedNotReady
  | skippedExists
  | merged
  | failed
deriving DecidableEq, Repr

/-- `os.path.getmtime`, fallible when the file vanished. -/
def getmtimeFs (fs : Fs) (n : String) : Option Int :=
  (lookupFs fs n).map (fun f => f.mtime)

/-- `max(os.path.getmtime(f) for f in group)`: `none` when any member is
missing (the `FileNotFoundError` path). -/
def newest_mtime (fs : Fs) (group : List String) : Option Int :=
  match group.mapM (getmtimeFs fs) with
  | some (m :: ms) => some (ms.foldl max m)
  | _ => none

/-- The per-window safety check: every member exists and has nonzero size. -/
def groupReady (fs : Fs) (group : List String) : Bool :=
  group.all (fun ts =>
    match lookupFs fs ts with
    | some f => f.data.length != 0
    | none => false)

/-- Python's `s.rsplit(".", 1)[0]`. -/
def stripLastExt (s : String) : String :=
  if s.data.contains '.' then
    String.mk (((s.data.reverse.dropWhile (fun c => c ≠ '.')).drop 1).reverse)
  else s

/-- `mp4_name = first_ts.rsplit(".", 1)[0] + ".mp4"`. -/
def mp4NameOf (group : List String) : String :=
  stripLastExt (group.headD "") ++ ".mp4"

/-- The single-quote character, written by code point to keep the escaping
model readable. -/
def squoteChar : Char := Char.ofNat 39

/-- Backslash. -/
def backslashChar : Char := Char.ofNat 92

/-- Newline. -/
def newlineChar : Char := Char.ofNat 10

/-- `ts.replace("'", "'\\''")` from the concat-list writer. -/
def escapeSingleQuotes : List Char → List Char
  | [] => []
  | c :: cs =>
    (if c = squoteChar then [squoteChar, backslashChar, squoteChar, squoteChar] else [c])
      ++ escapeSingleQuotes cs

/-- The bytes of the ffmpeg concat list: one `file '<escaped>'` line per
window member. -/
def concatManifest (group : List String) : List Nat :=
  ((group.map (fun ts =>
      "file ".data ++ [squoteChar] ++ escapeSingleQuotes ts.data
        ++ [squoteChar, newlineChar])).flatten).map Char.toNat

/-- The body of the per-window merge (lines 147-199): the readiness check,
the output-exists idempotence check, the concat-list write, the remux run,
the on-success source deletion and the `finally` concat-list removal. An
exception (`raiseExc`) returns `.error` with the directory as the
propagating exception leaves it. -/
def processGroupMerge (now : Int) (fs : Fs) (group : List String) (o : RemuxOutcome) :
    Except Fs (Fs × GroupDisp) :=
  if groupReady fs group then
    let mp4_name := mp4NameOf group
    if existsFs fs mp4_name then .ok (fs, .skippedExists)
    else
      let list_file := mp4_name ++ ".concat.txt"
      let fs1 := writeFs fs list_file ⟨concatManifest group, now⟩
      match o with
      | .raiseExc => .error (removeFs fs1 list_file)
      | .fail leftover =>
        let fs2 :=
          match leftover with
          | some f => writeFs fs1 mp4_name f
          | none => fs1
        .ok (removeFs fs2 list_file, .failed)
      | .ok out =>
        let fs2 := writeFs fs1 mp4_name out
        let fs3 := group.foldl
          (fun acc ts => if existsFs acc ts then removeFs acc ts else acc) fs2
        .ok (removeFs fs3 list_file, .merged)
  else .ok (fs, .skippedNotReady)

/-- One window of `merge_ts_to_mp4` (lines 128-199): the empty guard, the
undersized-window idle gate, then the merge body. -/
def processGroup (now : Int) (fs : Fs) (group : List String) (o : RemuxOutcome) :
    Except Fs (Fs × GroupDisp) :=
  if group.isEmpty then .ok (fs, .skippedEmpty)
  else if group.length < MERGE_GROUP_SIZE then
    match newest_mtime fs group with
    | none => .ok (fs, .skippedVanished)
    | some m =>
      if now - m < MERGE_IDLE_LIMIT then .ok (fs, .skippedIdle)
      else processGroupMerge now fs group o
  else processGroupMerge now fs group o

/-- Python's slicing loop `[ts_files[i:i+5] for i in range(0, len, 5)]`,
with the configured window size `MERGE_GROUP_SIZE = 5`: full windows of
five in order, then the remainder (if any) as the final short window. -/
def groupsOf : List String → List (List String)
  | a :: b :: c :: d :: e :: rest => [a, b, c, d, e] :: groupsOf rest
  | [] => []
  | l => [l]

/-- Code-point comparison of character lists (Python compares strings by
code point, shortest-prefix first). -/
def charListLe : List Char → List Char → Bool
  | [], _ => true
  | _ :: _, [] => false
  | a :: as, b :: bs =>
    if a.toNat < b.toNat then true
    else if b.toNat < a.toNat then false
    else charListLe as bs

/-- Python's `<=` on strings, by code points. -/
def strLe (a b : String) : Bool :=
  charListLe a.data b.data

/-- Ascending insertion of a name into a sorted listing (helper for the
model of Python's `sorted`). -/
def insSorted (s : String) : List String → List String
  | [] => [s]
  | t :: rest => if strLe s t then s :: t :: rest else t :: insSorted s rest

/-- Python's `sorted`, as a structural insertion sort (lexicographic
ascending). -/
def pySorted (l : List String) : List String :=
  l.foldr insSorted []

/-- `sorted([f for f in os.listdir() if f.endswith(".ts")])`. -/
def ts_listing (fs : Fs) : List String :=
  pySorted ((listdirFs fs).filter (fun f => endswith f ".ts"))

/-- The scan loop over the windows, threading the directory state; window
`i` runs with remux outcome `orac i`; an exception aborts the remaining
windows. The returned list holds one disposition per examined window. -/
def mergeGo (now : Int) (orac : Nat → RemuxOutcome) :
    List (List String) → Nat → Fs → List GroupDisp → Except Fs (Fs × List GroupDisp)
  | [], _, fs, acc => .ok (fs, acc)
  | g :: gs, i, fs, acc =>
    match processGroup now fs g (orac i) with
    | .error fs2 => .error fs2
    | .ok (fs2, d) => mergeGo now orac gs (i + 1) fs2 (acc ++ [d])

/-- `merge_ts_to_mp4`: list and sort the pending segments, window them, and
process each window in order. -/
def merge_ts_to_mp4 (now : Int) (fs : Fs) (orac : Nat → RemuxOutcome) :
    Except Fs (Fs × List GroupDisp) :=
  mergeGo now orac (groupsOf (ts_listing fs)) 0 fs []

/-! ## Segment fetcher (`download_new_segments` / `download_worker`, lines 44-110) -/

/-- The outcome of one segment's HTTP fetch-and-store: `ok data` is a
successful fetch of the full content; `failFetch` is an exception raised by
`requests.get`/`raise_for_status` (before the temp file is created);
`failWrite bad` is an exception raised while writing the temp file, which
then holds the partial bytes `bad`. -/
inductive DlOutcome where
  | ok (data : List Nat)
  | failFetch
  | failWrite (bad : List Nat)
deriving DecidableEq, Repr

/-- The fetcher's state across one polling cycle: the directory, the shared
seen-set `downloaded_ts`, the cycle's `new_files` counter, and the current
value of the loop-local variable `tmp_name` (which Python keeps across loop
iterations, so an early exception sees the previous iteration's value;
`none` models it being not yet assigned). -/
structure FetchState where
  fs : Fs
  downloaded_ts : List String
  new_files : Nat
  lastTmp : Option String
deriving DecidableEq, Repr

/-- One playlist entry's processing (lines 59-92): dedup against the
seen-set, skip if already on disk, else download to `<name>.part` and
atomically `os.replace` into place; on failure release the name from the
seen-set and remove the temp file if it exists. Returns the new state and
the trace of directory states made visible by this entry's filesystem
mutations. -/
def processEntry (deriveName : String → String) (t : Int) (st : FetchState)
    (ts_url : String) (o : DlOutcome) : FetchState × List Fs :=
  let ts_file := deriveName ts_url
  if st.downloaded_ts.contains ts_file then (st, [])
  else
    let seen1 := ts_file :: st.downloaded_ts
    if existsFs st.fs ts_file then
      ({ st with downloaded_ts := seen1 }, [])
    else
      match o with
      | .ok data =>
        let tmp_name := ts_file ++ ".part"
        let fs1 := writeFs st.fs tmp_name ⟨data, t⟩
        let fs2 := writeFs (removeFs fs1 tmp_name) ts_file ⟨data, t⟩
        ({ fs := fs2, downloaded_ts := seen1, new_files := st.new_files + 1,
           lastTmp := some tmp_name }, [fs1, fs2])
      | .failFetch =>
        let fs1 :=
          match st.lastTmp with
          | some tp => removeFs st.fs tp
          | none => st.fs
        ({ fs := fs1, downloaded_ts := seen1.erase ts_file, new_files := st.new_files,
           lastTmp := st.lastTmp }, [fs1])
      | .failWrite bad =>
        let tmp_name := ts_file ++ ".part"
        let fs1 := writeFs st.fs tmp_name ⟨bad, t⟩
        let fs2 := removeFs fs1 tmp_name
        ({ fs := fs2, downloaded_ts := seen1.erase ts_file, new_files := st.new_files,
           lastTmp := some tmp_name }, [fs1, fs2])

/-- Split a character list at newline characters (the model of Python's
line splitting of the playlist body). -/
def splitLines : List Char → List (List Char)
  | [] => [[]]
  | c :: rest =>
    match splitLines rest with
    | [] => [[]]
    | line :: more =>
      if c = newlineChar then [] :: line :: more else (c :: line) :: more

/-- Python `str.isspace` characters relevant to `strip`. -/
def isSpaceChar (c : Char) : Bool :=
  c = ' ' || c = newlineChar || c = Char.ofNat 9 || c = Char.ofNat 13

/-- Python's `str.strip()`. -/
def pyStrip (l : List Char) : List Char :=
  ((l.dropWhile isSpaceChar).reverse.dropWhile isSpaceChar).reverse

/-- `str.startswith`, on the underlying character lists. -/
def strStartsWith (s p : String) : Bool :=
  p.data.isPrefixOf s.data

/-- The playlist parse (lines 53-54): keep raw lines that are nonempty and
do not start with `#`, then strip them. -/
def playlistEntries (text : String) : List String :=
  (((splitLines text.data).filter
      (fun l => !(l.isEmpty) && !("#".data.isPrefixOf l))).map
    (fun l => String.mk (pyStrip l)))

/-- `M3U8_URL.rsplit("/", 1)[0]`. -/
def baseUrlOf (u : String) : String :=
  if u.data.contains '/' then
    String.mk (((u.data.reverse.dropWhile (fun c => c ≠ '/')).drop 1).reverse)
  else u

/-- Line 60: absolute entries pass through, relative entries are joined to
the playlist's base URL. -/
def resolveUrl (m3u8Url tsName : String) : String :=
  if strStartsWith tsName "http" then tsName else baseUrlOf m3u8Url ++ "/" ++ tsName

/-- The fetch loop over the playlist entries, with entry `i` drawing
download outcome `oc i`. -/
def runEntries (deriveName : String → String) (t : Int) (oc : Nat → DlOutcome) :
    List String → Nat → FetchState → FetchState
  | [], _, st => st
  | u :: us, i, st => runEntries deriveName t oc us (i + 1) (processEntry deriveName t st u (oc i)).1

/-- `download_new_segments`: `none` for the playlist is a fetch failure
(logged, cycle aborted, returns `False`); otherwise each resolved entry is
processed in playlist order and the cycle reports whether `new_files > 0`. -/
def download_new_segments (deriveName : String → String) (m3u8Url : String) (t : Int)
    (playlist : Option String) (oc : Nat → DlOutcome) (fs0 : Fs) (seen0 : List String) :
    FetchState × Bool :=
  match playlist with
  | none => ({ fs := fs0, downloaded_ts := seen0, new_files := 0, lastTmp := none }, false)
  | some text =>
    let urls := (playlistEntries text).map (resolveUrl m3u8Url)
    let st := runEntries deriveName t oc urls 0
      { fs := fs0, downloaded_ts := seen0, new_files := 0, lastTmp := none }
    (st, decide (0 < st.new_files))

/-- The wait `download_worker` performs after a cycle (lines 101-107): a
1-second fast re-poll after a cycle with new files, else the full
`CHECK_INTERVAL`. -/
def worker_wait (new : Bool) : Nat :=
  if new then 1 else CHECK_INTERVAL

/-- Invariant of a fetch cycle, relating the running state to the directory
`fs0` at cycle start: the loop-local temp name always ends in `.part`; a
positive `new_files` counter is witnessed by a published (non-`.part`) file
that is new since cycle start; non-`.part` files present at cycle start are
never removed by the cycle; and any name new since cycle start implies a
positive counter. -/
def FetchInv (fs0 : Fs) (st : FetchState) : Prop :=
  (∀ tp, st.lastTmp = some tp → endswith tp ".part" = true)
  ∧ (0 < st.new_files →
      ∃ n, endswith n ".part" = false ∧ lookupFs fs0 n = none ∧ lookupFs st.fs n ≠ none)
  ∧ (∀ m, endswith m ".part" = false → lookupFs fs0 m ≠ none → lookupFs st.fs m ≠ none)
  ∧ (∀ m, lookupFs fs0 m = none → lookupFs st.fs m ≠ none → 0 < st.new_files)

/-! ## Theorems -/

theorem lookupFs_removeFs (fs : Fs) (a b : String) :
    lookupFs (removeFs fs a) b = if b = a then none else lookupFs fs b := by
  induction fs with
  | nil => simp [removeFs, lookupFs]
  | cons p rest ih =>
    obtain ⟨k, v⟩ := p
    by_cases hk : k = a
    · rw [show removeFs ((k, v) :: rest) a = removeFs rest a from by simp [removeFs, hk]]
      rw [ih]
      by_cases hb : b = a
      · simp [hb]
      · have hkb : ¬ k = b := fun h => hb (h.symm.trans hk)
        simp [lookupFs, hkb, hb]
    · rw [show removeFs ((k, v) :: rest) a = (k, v) :: removeFs rest a from by
        simp [removeFs, hk]]
      by_cases hkb : k = b
      · have hba : ¬ b = a := fun h => hk (hkb.trans h)
        simp [lookupFs, hkb, hba]
      · simp [lookupFs, hkb, ih]

theorem lookupFs_writeFs (fs : Fs) (a b : String) (f : MFile) :
    lookupFs (writeFs fs a f) b = if b = a then some f else lookupFs fs b := by
  by_cases hb : b = a
  · simp [writeFs, lookupFs, hb]
  · have hab : ¬ a = b := fun h => hb h.symm
    simp [writeFs, lookupFs, hab, hb, lookupFs_removeFs]

/-- C1: `process_files` selects exactly the files the hold-back policy
describes: with more than 5 unsent artifacts, the oldest `count - 5` are
immediately eligible plus each of the newest 5 whose age exceeds 180
seconds; with 5 or fewer, only artifacts older than 180 seconds are
selected. -/
theorem process_files_selects_holdback_policy
    (status0 : SentStatus) (now : Int) (all_files : List String) :
    files_to_send status0 now all_files = holdback_policy_spec status0 now all_files := by
  unfold files_to_send holdback_policy_spec
  by_cases h : (all_files.filter (isUnsent (registerFiles status0 now all_files))).length > 5
  · simp [h]
  · have hle : (all_files.filter (isUnsent (registerFiles status0 now all_files))).length - 5 = 0 := by
      omega
    simp [h, hle]

theorem start_le_last_new_file_time (start : Int) (obs : List IterObs)
    (hmono : ∀ o ∈ obs, start ≤ o.tChange) :
    start ≤ last_new_file_time start obs := by
  unfold last_new_file_time
  have general : ∀ (l : List IterObs) (init : Int), start ≤ init →
      (∀ o ∈ l, start ≤ o.tChange) →
      start ≤ l.foldl (fun last o => if o.changed then o.tChange else last) init := by
    intro l
    induction l with
    | nil => intro init h _; simpa using h
    | cons o rest ih =>
      intro init hinit hall
      simp only [List.foldl_cons]
      apply ih
      · by_cases hc : o.changed <;> simp [hc]
        · exact hall o (by simp)
        · exact hinit
      · intro x hx; exact hall x (by simp [hx])
  exact general obs start le_rfl hmono

/-- C4: the idle-exit condition of the main loop can never hold while the
hard-cap condition fails: since `last_new_file_time` starts at `start_time`
and is only ever replaced by later clock readings, at any check instant `t`
with `t - last_new_file_time > 9000` we also have `t - start_time > 9000`. -/
theorem idle_exit_implies_hard_cap (start t : Int) (obs : List IterObs)
    (hmono : ∀ o ∈ obs, start ≤ o.tChange) :
    t - last_new_file_time start obs > SESSION_IDLE_CAP →
    t - start > SESSION_HARD_CAP := by
  intro hidle
  have hle := start_le_last_new_file_time start obs hmono
  simp only [SESSION_IDLE_CAP] at hidle
  simp only [SESSION_HARD_CAP]
  omega

/-- Witness for C4 at a concrete run: two iterations with one directory
change at clock 500; at check time 10000 the idle condition holds, and the
theorem yields the hard-cap condition. -/
theorem idle_exit_implies_hard_cap_witness :
    (10000 : Int) - 0 > SESSION_HARD_CAP :=
  idle_exit_implies_hard_cap 0 10000 [⟨true, 500⟩, ⟨false, 0⟩]
    (by decide) (by decide)

theorem mem_listdirFs_of_lookup (fs : Fs) (n : String) (h : lookupFs fs n ≠ none) :
    n ∈ listdirFs fs := by
  induction fs with
  | nil => simp [lookupFs] at h
  | cons p rest ih =>
    obtain ⟨k, v⟩ := p
    by_cases hk : k = n
    · simp [listdirFs, hk]
    · simp only [lookupFs, hk, if_false] at h
      have := ih h
      simp [listdirFs] at this ⊢
      exact Or.inr this

theorem cleanup_go_removes (names : List String) (acc : Fs) (n : String)
    (hcond : (endswith n ".ts" || endswith n ".part") = true)
    (h : n ∈ names ∨ lookupFs acc n = none) :
    lookupFs
      (names.foldl
        (fun acc f => if endswith f ".ts" || endswith f ".part" then removeFs acc f else acc)
        acc) n = none := by
  induction names generalizing acc with
  | nil => simpa using h.resolve_left (by simp)
  | cons m rest ih =>
    simp only [List.foldl_cons]
    apply ih
    rcases h with h | h
    · rcases List.mem_cons.mp h with rfl | hmem
      · right
        simp [hcond, lookupFs_removeFs]
      · left
        exact hmem
    · right
      by_cases hm : (endswith m ".ts" || endswith m ".part") = true
      · by_cases hnm : n = m <;> simp [hm, lookupFs_removeFs, hnm, h]
      · simp [hm, h]

/-- C8: after the shutdown cleanup in the `finally` block runs — whether the
loop body finished normally or an exception propagated — no file whose name
ends in `.ts` and no file whose name ends in `.part` remains in the working
directory. -/
theorem shutdown_cleanup_removes_transients (r : Except Fs Fs) (n : String)
    (h : endswith n ".ts" = true ∨ endswith n ".part" = true) :
    lookupFs (session_shutdown r) n = none := by
  have hcond : (endswith n ".ts" || endswith n ".part") = true := by
    rcases h with h | h <;> simp [h]
  have main : ∀ fs : Fs, lookupFs (session_cleanup fs) n = none := by
    intro fs
    unfold session_cleanup
    apply cleanup_go_removes _ _ _ hcond
    by_cases hl : lookupFs fs n = none
    · exact Or.inr hl
    · exact Or.inl (mem_listdirFs_of_lookup fs n hl)
  cases r with
  | ok fs => exact main fs
  | error fs => exact main fs

/-- Witness for C8: a concrete directory holding a segment, a temp file and
an artifact; after shutdown (here: via the exception path) the segment is
gone. -/
theorem shutdown_cleanup_removes_transients_witness :
    lookupFs
      (session_shutdown
        (.error [("seg1.ts", ⟨[1, 2], 10⟩), ("x.mp4.part", ⟨[3], 11⟩), ("a.mp4", ⟨[4], 12⟩)]))
      "seg1.ts" = none :=
  shutdown_cleanup_removes_transients _ "seg1.ts" (Or.inl (by decide))

theorem pyReplaceDotDot_head_dot (l : List Char) (d : Char) (ds : List Char)
    (h : pyReplaceDotDot l = d :: ds) (hd : d = '.') : l.head? = some '.' := by
  match l with
  | [] => simp [pyReplaceDotDot] at h
  | [c] =>
    simp [pyReplaceDotDot] at h
    simp [h.1, hd]
  | c1 :: c2 :: rest =>
    by_cases hc : c1 = '.' ∧ c2 = '.'
    · simp [hc.1]
    · rw [show pyReplaceDotDot (c1 :: c2 :: rest) = c1 :: pyReplaceDotDot (c2 :: rest) from by
        simp [pyReplaceDotDot, hc]] at h
      simp at h
      simp [h.1, hd]

theorem pyReplaceDotDot_no_dotdot (l : List Char) :
    hasDotDot (pyReplaceDotDot l) = false := by
  induction l using pyReplaceDotDot.induct with
  | case1 c1 c2 rest h ih =>
    rw [show pyReplaceDotDot (c1 :: c2 :: rest) = '_' :: pyReplaceDotDot rest from by
      simp [pyReplaceDotDot, h]]
    cases hx : pyReplaceDotDot rest with
    | nil => simp [hasDotDot]
    | cons d ds =>
      rw [hx] at ih
      simp [hasDotDot, ih]
  | case2 c1 c2 rest h ih =>
    rw [show pyReplaceDotDot (c1 :: c2 :: rest) = c1 :: pyReplaceDotDot (c2 :: rest) from by
      simp [pyReplaceDotDot, h]]
    cases hx : pyReplaceDotDot (c2 :: rest) with
    | nil => simp [hasDotDot]
    | cons d ds =>
      rw [hx] at ih
      have hnd : ¬(c1 = '.' ∧ d = '.') := by
        intro hboth
        have := pyReplaceDotDot_head_dot (c2 :: rest) d ds hx hboth.2
        simp at this
        exact h ⟨hboth.1, this⟩
      simp [hasDotDot, ih]
      intro h1 h2
      exact absurd ⟨h1, h2⟩ hnd
  | case3 l h =>
    rcases l with _ | ⟨c, _ | ⟨c2, rest⟩⟩
    · simp [pyReplaceDotDot, hasDotDot]
    · simp [pyReplaceDotDot, hasDotDot]
    · exact absurd rfl (fun hh => h c c2 rest hh)

theorem pyReplaceDotDot_length_le (l : List Char) :
    (pyReplaceDotDot l).length ≤ l.length := by
  induction l using pyReplaceDotDot.induct with
  | case1 c1 c2 rest h ih =>
    rw [show pyReplaceDotDot (c1 :: c2 :: rest) = '_' :: pyReplaceDotDot rest from by
      simp [pyReplaceDotDot, h]]
    simp
    omega
  | case2 c1 c2 rest h ih =>
    rw [show pyReplaceDotDot (c1 :: c2 :: rest) = c1 :: pyReplaceDotDot (c2 :: rest) from by
      simp [pyReplaceDotDot, h]]
    simp at ih ⊢
    omega
  | case3 l h =>
    rcases l with _ | ⟨c, _ | ⟨c2, rest⟩⟩
    · simp [pyReplaceDotDot]
    · simp [pyReplaceDotDot]
    · exact absurd rfl (fun hh => h c c2 rest hh)

theorem pyReplaceSlash_no_slash (l : List Char) : '/' ∉ pyReplaceSlash l := by
  intro hmem
  simp only [pyReplaceSlash, List.mem_map] at hmem
  obtain ⟨c, _, heq⟩ := hmem
  by_cases h : c = '/'
  · rw [if_pos h] at heq
    exact absurd heq (by decide)
  · rw [if_neg h] at heq
    exact h heq

theorem pyReplaceSlash_hasDotDot (l : List Char) :
    hasDotDot (pyReplaceSlash l) = hasDotDot l := by
  induction l with
  | nil => simp [pyReplaceSlash, hasDotDot]
  | cons c rest ih =>
    cases rest with
    | nil =>
      by_cases hc : c = '/' <;> simp [pyReplaceSlash, hasDotDot, hc]
    | cons c2 r2 =>
      have hdot : ∀ x : Char, (decide ((if x = '/' then '_' else x) = '.')) = decide (x = '.') := by
        intro x
        by_cases hx : x = '/'
        · rw [if_pos hx, hx]
          decide
        · rw [if_neg hx]
      simp only [pyReplaceSlash, List.map_cons] at ih ⊢
      rw [show hasDotDot ((if c = '/' then '_' else c) :: (if c2 = '/' then '_' else c2) ::
            List.map (fun c => if c = '/' then '_' else c) r2) =
          (((if c = '/' then '_' else c) = '.' && ((if c2 = '/' then '_' else c2) = '.')) ||
            hasDotDot ((if c2 = '/' then '_' else c2) ::
              List.map (fun c => if c = '/' then '_' else c) r2)) from rfl]
      rw [show hasDotDot (c :: c2 :: r2) = ((c = '.' && (c2 = '.')) || hasDotDot (c2 :: r2)) from rfl]
      rw [ih, hdot c, hdot c2]

theorem sanitizeName_length_le (s : String) : (sanitizeName s).length ≤ s.length := by
  show (pyReplaceSlash (pyReplaceDotDot s.data)).length ≤ s.data.length
  rw [pyReplaceSlash, List.length_map]
  exact pyReplaceDotDot_length_le s.data

theorem sanitizeName_no_dotdot (s : String) : hasDotDot (sanitizeName s).data = false := by
  show hasDotDot (pyReplaceSlash (pyReplaceDotDot s.data)) = false
  rw [pyReplaceSlash_hasDotDot]
  exact pyReplaceDotDot_no_dotdot s.data

theorem sanitizeName_no_slash (s : String) : '/' ∉ (sanitizeName s).data :=
  pyReplaceSlash_no_slash (pyReplaceDotDot s.data)

/-- C5: `safe_ts_filename` is a pure deterministic function; for every URL
and all behaviours of the stdlib helpers it parameterizes, the produced name
is at most 80 characters, contains no `..` sequence and no `/` separator,
and whenever the decoded `.ts`-suffixed basename exceeds 80 characters the
result is the sanitized fixed-prefix-plus-8-character-hash fallback. -/
theorem safe_ts_filename_props (pp pb pu pm : String → String) (ts_url : String) :
    safe_ts_filename pp pb pu pm ts_url = safe_ts_filename pp pb pu pm ts_url
    ∧ (safe_ts_filename pp pb pu pm ts_url).length ≤ 80
    ∧ hasDotDot (safe_ts_filename pp pb pu pm ts_url).data = false
    ∧ '/' ∉ (safe_ts_filename pp pb pu pm ts_url).data
    ∧ (80 < (preTsName pp pb pu ts_url).length →
        safe_ts_filename pp pb pu pm ts_url =
          sanitizeName ("segment_" ++ String.mk ((pm ts_url).data.take 8) ++ ".ts")) := by
  refine ⟨rfl, ?_, sanitizeName_no_dotdot _, sanitizeName_no_slash _, ?_⟩
  · unfold safe_ts_filename
    by_cases h80 : (preTsName pp pb pu ts_url).length > 80
    · simp only [h80, if_true]
      refine le_trans (sanitizeName_length_le _) ?_
      rw [String.length_append, String.length_append]
      have h1 : ("segment_" : String).length = 8 := rfl
      have h2 : (".ts" : String).length = 3 := rfl
      have h3 : (String.mk ((pm ts_url).data.take 8)).length ≤ 8 := by
        show ((pm ts_url).data.take 8).length ≤ 8
        simp [List.length_take]
      omega
    · simp only [h80, if_false]
      exact le_trans (sanitizeName_length_le _) (by omega)
  · intro h80
    simp [safe_ts_filename, h80]

/-- Witness for C5 at a concrete over-long URL (stdlib helpers instantiated
with the identity, the hash helper included). -/
theorem safe_ts_filename_props_witness :
    (safe_ts_filename id id id id
        "aaaaaaaaaaaaaaaaaaaaaaaaaaaaaaaaaaaaaaaaaaaaaaaaaaaaaaaaaaaaaaaaaaaaaaaaaaaaaaaaaaaaaaaa").length ≤ 80
    ∧ safe_ts_filename id id id id
        "aaaaaaaaaaaaaaaaaaaaaaaaaaaaaaaaaaaaaaaaaaaaaaaaaaaaaaaaaaaaaaaaaaaaaaaaaaaaaaaaaaaaaaaa" =
        sanitizeName ("segment_" ++
          String.mk ((id "aaaaaaaaaaaaaaaaaaaaaaaaaaaaaaaaaaaaaaaaaaaaaaaaaaaaaaaaaaaaaaaaaaaaaaaaaaaaaaaaaaaaaaaa" : String).data.take 8) ++ ".ts") :=
  ⟨(safe_ts_filename_props id id id id _).2.1,
   (safe_ts_filename_props id id id id _).2.2.2.2 (by decide)⟩

theorem getLast?_of_suffix {l m : List Char} (h : l <:+ m) (hne : l ≠ []) :
    m.getLast? = l.getLast? := by
  obtain ⟨t, rfl⟩ := h
  exact List.getLast?_append_of_ne_nil _ hne

theorem endswith_getLast? (s suf : String) (h : endswith s suf = true)
    (hne : suf.data ≠ []) : s.data.getLast? = suf.data.getLast? := by
  unfold endswith at h
  exact getLast?_of_suffix (List.isSuffixOf_iff_suffix.mp h) hne

theorem ne_of_endswith_distinct (a b sa sb : String)
    (ha : endswith a sa = true) (hb : endswith b sb = true)
    (hne_a : sa.data ≠ []) (hne_b : sb.data ≠ [])
    (hlast : sa.data.getLast? ≠ sb.data.getLast?) : a ≠ b := by
  intro hab
  apply hlast
  rw [← endswith_getLast? a sa ha hne_a, hab, endswith_getLast? b sb hb hne_b]

theorem endswith_append_self (a b : String) : endswith (a ++ b) b = true := by
  unfold endswith
  rw [show ((a ++ b).data) = a.data ++ b.data from String.data_append a b]
  exact List.isSuffixOf_iff_suffix.mpr (List.suffix_append a.data b.data)

theorem endswith_concat_txt (x : String) : endswith (x ++ ".concat.txt") ".txt" = true := by
  unfold endswith
  rw [show ((x ++ ".concat.txt").data) = x.data ++ ".concat.txt".data from
    String.data_append x ".concat.txt"]
  exact List.isSuffixOf_iff_suffix.mpr
    (List.IsSuffix.trans (by decide) (List.suffix_append x.data _))

theorem ts_ne_mp4Name (ts x : String) (hts : endswith ts ".ts" = true) :
    ts ≠ x ++ ".mp4" :=
  ne_of_endswith_distinct ts (x ++ ".mp4") ".ts" ".mp4" hts
    (endswith_append_self x ".mp4") (by decide) (by decide) (by decide)

theorem ts_ne_concat_txt (ts x : String) (hts : endswith ts ".ts" = true) :
    ts ≠ x ++ ".concat.txt" :=
  ne_of_endswith_distinct ts (x ++ ".concat.txt") ".ts" ".txt" hts
    (endswith_concat_txt x) (by decide) (by decide) (by decide)

theorem lookupFs_foldl_remove_not_mem (group : List String) (acc : Fs) (m : String)
    (h : m ∉ group) :
    lookupFs (group.foldl (fun acc ts => if existsFs acc ts then removeFs acc ts else acc) acc) m
      = lookupFs acc m := by
  induction group generalizing acc with
  | nil => rfl
  | cons t rest ih =>
    have hm : m ≠ t := fun hh => h (by simp [hh])
    simp only [List.foldl_cons]
    rw [ih _ (fun hh => h (by simp [hh]))]
    by_cases he : existsFs acc t
    · simp [he, lookupFs_removeFs, hm]
    · simp [he]

theorem lookupFs_foldl_remove_mem (group : List String) (acc : Fs) (m : String)
    (h : m ∈ group) :
    lookupFs (group.foldl (fun acc ts => if existsFs acc ts then removeFs acc ts else acc) acc) m
      = none := by
  have hnone : ∀ (g : List String) (a : Fs), lookupFs a m = none →
      lookupFs (g.foldl (fun acc ts => if existsFs acc ts then removeFs acc ts else acc) a) m
        = none := by
    intro g
    induction g with
    | nil => intro a ha; exact ha
    | cons t rest ih =>
      intro a ha
      simp only [List.foldl_cons]
      apply ih
      by_cases he : existsFs a t
      · by_cases hm : m = t <;> simp [he, lookupFs_removeFs, hm, ha]
      · simp [he, ha]
  induction group generalizing acc with
  | nil => simp at h
  | cons t rest ih =>
    simp only [List.foldl_cons]
    rcases List.mem_cons.mp h with rfl | hmem
    · apply hnone
      by_cases he : existsFs acc m
      · simp [he, lookupFs_removeFs]
      · rw [if_neg he]
        cases hl : lookupFs acc m with
        | none => rfl
        | some f => exact absurd (by simp [existsFs, hl]) he
    · exact ih _ hmem


theorem processGroupMerge_merged_sources_gone (now : Int) (fs : Fs) (group : List String)
    (o : RemuxOutcome) (fs2 : Fs)
    (hts : ∀ ts ∈ group, endswith ts ".ts" = true)
    (h : processGroupMerge now fs group o = .ok (fs2, .merged)) :
    ∀ ts ∈ group, lookupFs fs2 ts = none := by
  unfold processGroupMerge at h
  by_cases hready : groupReady fs group
  · by_cases hex : existsFs fs (mp4NameOf group)
    · simp [hready, hex] at h
    · cases o with
      | raiseExc => simp [hready, hex] at h
      | fail leftover => cases leftover <;> simp [hready, hex] at h
      | ok out =>
        simp [hready, hex] at h
        intro ts hmem
        rw [← h, lookupFs_removeFs,
          if_neg (ts_ne_concat_txt ts (mp4NameOf group) (hts ts hmem))]
        exact lookupFs_foldl_remove_mem group _ ts hmem
  · simp [hready] at h

theorem ts_ne_mp4NameOf (ts : String) (group : List String)
    (hts : endswith ts ".ts" = true) : ts ≠ mp4NameOf group :=
  ts_ne_mp4Name ts (stripLastExt (group.headD "")) hts

theorem processGroupMerge_failed_preserves (now : Int) (fs : Fs) (group : List String)
    (o : RemuxOutcome) (fs2 : Fs)
    (hts : ∀ ts ∈ group, endswith ts ".ts" = true)
    (h : processGroupMerge now fs group o = .ok (fs2, .failed)) :
    ∀ ts ∈ group, lookupFs fs2 ts = lookupFs fs ts := by
  unfold processGroupMerge at h
  by_cases hready : groupReady fs group
  · by_cases hex : existsFs fs (mp4NameOf group)
    · simp [hready, hex] at h
    · cases o with
      | raiseExc => simp [hready, hex] at h
      | ok out => simp [hready, hex] at h
      | fail leftover =>
        cases leftover with
        | none =>
          simp [hready, hex] at h
          intro ts hmem
          rw [← h, lookupFs_removeFs,
            if_neg (ts_ne_concat_txt ts (mp4NameOf group) (hts ts hmem)),
            lookupFs_writeFs,
            if_neg (ts_ne_concat_txt ts (mp4NameOf group) (hts ts hmem))]
        | some f =>
          simp [hready, hex] at h
          intro ts hmem
          rw [← h, lookupFs_removeFs,
            if_neg (ts_ne_concat_txt ts (mp4NameOf group) (hts ts hmem)),
            lookupFs_writeFs,
            if_neg (ts_ne_mp4NameOf ts group (hts ts hmem)),
            lookupFs_writeFs,
            if_neg (ts_ne_concat_txt ts (mp4NameOf group) (hts ts hmem))]
  · simp [hready] at h

theorem processGroup_merged_sources_gone (now : Int) (fs : Fs) (group : List String)
    (o : RemuxOutcome) (fs2 : Fs)
    (hts : ∀ ts ∈ group, endswith ts ".ts" = true)
    (h : processGroup now fs group o = .ok (fs2, .merged)) :
    ∀ ts ∈ group, lookupFs fs2 ts = none := by
  unfold processGroup at h
  by_cases hempty : group.isEmpty
  · simp [hempty] at h
  · by_cases hsmall : group.length < MERGE_GROUP_SIZE
    · cases hmt : newest_mtime fs group with
      | none => simp [hempty, hsmall, hmt] at h
      | some m =>
        by_cases hidle : now - m < MERGE_IDLE_LIMIT
        · simp [hempty, hsmall, hmt, hidle] at h
        · simp [hempty, hsmall, hmt, hidle] at h
          exact processGroupMerge_merged_sources_gone now fs group o fs2 hts h
    · simp [hempty, hsmall] at h
      exact processGroupMerge_merged_sources_gone now fs group o fs2 hts h

theorem processGroup_failed_preserves (now : Int) (fs : Fs) (group : List String)
    (o : RemuxOutcome) (fs2 : Fs)
    (hts : ∀ ts ∈ group, endswith ts ".ts" = true)
    (h : processGroup now fs group o = .ok (fs2, .failed)) :
    ∀ ts ∈ group, lookupFs fs2 ts = lookupFs fs ts := by
  unfold processGroup at h
  by_cases hempty : group.isEmpty
  · simp [hempty] at h
  · by_cases hsmall : group.length < MERGE_GROUP_SIZE
    · cases hmt : newest_mtime fs group with
      | none => simp [hempty, hsmall, hmt] at h
      | some m =>
        by_cases hidle : now - m < MERGE_IDLE_LIMIT
        · simp [hempty, hsmall, hmt, hidle] at h
        · simp [hempty, hsmall, hmt, hidle] at h
          exact processGroupMerge_failed_preserves now fs group o fs2 hts h
    · simp [hempty, hsmall] at h
      exact processGroupMerge_failed_preserves now fs group o fs2 hts h

/-- C3 (amended): when a window's remux exits with status zero every source
segment of the window is deleted, and when it exits nonzero every source
segment is left exactly as it was (only the concat list is cleaned up); but
the script does not stage or remove the output path on failure, so whatever
the remux tool left there — including a partial artifact — stays visible
(see the counterexample for the original claim). -/
theorem merge_window_success_deletes_failure_preserves (now : Int) (fs : Fs)
    (group : List String) (o : RemuxOutcome)
    (hts : ∀ ts ∈ group, endswith ts ".ts" = true) :
    (∀ fs2, processGroup now fs group o = .ok (fs2, .merged) →
      ∀ ts ∈ group, lookupFs fs2 ts = none)
    ∧ (∀ fs2, processGroup now fs group o = .ok (fs2, .failed) →
      ∀ ts ∈ group, lookupFs fs2 ts = lookupFs fs ts) :=
  ⟨fun fs2 h => processGroup_merged_sources_gone now fs group o fs2 hts h,
   fun fs2 h => processGroup_failed_preserves now fs group o fs2 hts h⟩

/-- Counterexample to C3 as stated: a window whose remux fails after having
written a partial file at the output path leaves that partial artifact
visible (`a.mp4` exists after the failed scan), since `merge_ts_to_mp4`
never removes or stages the output path on failure. -/
theorem merge_failure_leaves_partial_output_visible :
    (merge_ts_to_mp4 100 [("a.ts", ⟨[1], 0⟩)] (fun _ => .fail (some ⟨[9], 7⟩))).map
        (fun r => (existsFs r.1 "a.mp4", r.2))
      = .ok (true, [.failed]) := by
  rfl

/-- Witness for the amended C3 at a concrete window: after a successful
merge of `["a.ts"]` the source segment is gone. -/
theorem merge_window_success_deletes_failure_preserves_witness :
    lookupFs [("a.mp4", ⟨[5], 3⟩)] "a.ts" = none :=
  (merge_window_success_deletes_failure_preserves 100 [("a.ts", ⟨[1], 0⟩)] ["a.ts"]
      (.ok ⟨[5], 3⟩) (by decide)).1
    [("a.mp4", ⟨[5], 3⟩)] (by rfl) "a.ts" (by decide)

/-- C6: a window smaller than the batch size is gated on idleness: it
vanishing members skip it, a newest modification time less than
`MERGE_IDLE_LIMIT` seconds old skips it, and it can only reach a merge when
the newest modification time is at least `MERGE_IDLE_LIMIT` seconds in the
past. -/
theorem small_window_idle_gate (now : Int) (fs : Fs) (group : List String)
    (o : RemuxOutcome) (hne : group ≠ []) (hsmall : group.length < MERGE_GROUP_SIZE) :
    (newest_mtime fs group = none → processGroup now fs group o = .ok (fs, .skippedVanished))
    ∧ (∀ m, newest_mtime fs group = some m → now - m < MERGE_IDLE_LIMIT →
        processGroup now fs group o = .ok (fs, .skippedIdle))
    ∧ (∀ fs2, processGroup now fs group o = .ok (fs2, .merged) →
        ∃ m, newest_mtime fs group = some m ∧ MERGE_IDLE_LIMIT ≤ now - m) := by
  have hempty : group.isEmpty = false := by
    cases group with
    | nil => exact absurd rfl hne
    | cons a l => rfl
  refine ⟨?_, ?_, ?_⟩
  · intro hmt
    unfold processGroup
    simp [hempty, hsmall, hmt]
  · intro m hmt hidle
    unfold processGroup
    simp [hempty, hsmall, hmt, hidle]
  · intro fs2 h
    unfold processGroup at h
    cases hmt : newest_mtime fs group with
    | none => simp [hempty, hsmall, hmt] at h
    | some m =>
      by_cases hidle : now - m < MERGE_IDLE_LIMIT
      · simp [hempty, hsmall, hmt, hidle] at h
      · exact ⟨m, rfl, by omega⟩

/-- Witness for C6: a one-segment window whose file was modified 10 seconds
ago is skipped as not yet idle. -/
theorem small_window_idle_gate_witness :
    processGroup 10 [("a.ts", ⟨[1], 0⟩)] ["a.ts"] (.ok ⟨[2], 1⟩)
      = .ok ([("a.ts", ⟨[1], 0⟩)], .skippedIdle) :=
  (small_window_idle_gate 10 [("a.ts", ⟨[1], 0⟩)] ["a.ts"] (.ok ⟨[2], 1⟩)
      (by decide) (by decide)).2.1 0 (by rfl) (by decide)

theorem processGroupMerge_exists_skip (now : Int) (fs : Fs) (group : List String)
    (o : RemuxOutcome) (hex : existsFs fs (mp4NameOf group) = true) :
    ∃ d, processGroupMerge now fs group o = .ok (fs, d) ∧ d ≠ .merged ∧ d ≠ .failed := by
  unfold processGroupMerge
  by_cases hready : groupReady fs group
  · exact ⟨.skippedExists, by simp [hready, hex], by decide, by decide⟩
  · exact ⟨.skippedNotReady, by simp [hready], by decide, by decide⟩

/-- C7: a window whose target output artifact already exists is disposed of
without any remux and without touching the directory — the existing output
makes the merge step idempotent, so re-running the merge on an already
merged batch is a no-op for that window. -/
theorem merge_skips_existing_output (now : Int) (fs : Fs) (group : List String)
    (o : RemuxOutcome) (hex : existsFs fs (mp4NameOf group) = true) :
    ∃ d, processGroup now fs group o = .ok (fs, d) ∧ d ≠ .merged ∧ d ≠ .failed := by
  unfold processGroup
  by_cases hempty : group.isEmpty
  · exact ⟨.skippedEmpty, by simp [hempty], by decide, by decide⟩
  · by_cases hsmall : group.length < MERGE_GROUP_SIZE
    · cases hmt : newest_mtime fs group with
      | none => exact ⟨.skippedVanished, by simp [hempty, hsmall, hmt], by decide, by decide⟩
      | some m =>
        by_cases hidle : now - m < MERGE_IDLE_LIMIT
        · exact ⟨.skippedIdle, by simp [hempty, hsmall, hmt, hidle], by decide, by decide⟩
        · obtain ⟨d, hd, h1, h2⟩ := processGroupMerge_exists_skip now fs group o hex
          exact ⟨d, by simp [hempty, hsmall, hmt, hidle, hd], h1, h2⟩
    · obtain ⟨d, hd, h1, h2⟩ := processGroupMerge_exists_skip now fs group o hex
      exact ⟨d, by simp [hempty, hsmall, hd], h1, h2⟩

/-- Witness for C7: with `a.mp4` already on disk, the window `["a.ts"]` is
skipped without a merge and without deletions. -/
theorem merge_skips_existing_output_witness :
    ∃ d, processGroup 100 [("a.ts", ⟨[1], 0⟩), ("a.mp4", ⟨[2], 1⟩)] ["a.ts"] (.ok ⟨[5], 9⟩)
        = .ok ([("a.ts", ⟨[1], 0⟩), ("a.mp4", ⟨[2], 1⟩)], d) ∧ d ≠ .merged ∧ d ≠ .failed :=
  merge_skips_existing_output 100 [("a.ts", ⟨[1], 0⟩), ("a.mp4", ⟨[2], 1⟩)] ["a.ts"]
    (.ok ⟨[5], 9⟩) (by decide)

theorem processGroupMerge_no_raise (now : Int) (fs : Fs) (group : List String)
    (o : RemuxOutcome) (ho : o ≠ .raiseExc) :
    ∃ fs2 d, processGroupMerge now fs group o = .ok (fs2, d) := by
  unfold processGroupMerge
  by_cases hready : groupReady fs group
  · by_cases hex : existsFs fs (mp4NameOf group)
    · exact ⟨fs, .skippedExists, by simp [hready, hex]⟩
    · cases o with
      | raiseExc => exact absurd rfl ho
      | fail leftover =>
        cases leftover with
        | none =>
          exact ⟨removeFs (writeFs fs (mp4NameOf group ++ ".concat.txt")
              ⟨concatManifest group, now⟩) (mp4NameOf group ++ ".concat.txt"),
            .failed, by simp [hready, hex]⟩
        | some f =>
          exact ⟨removeFs (writeFs (writeFs fs (mp4NameOf group ++ ".concat.txt")
              ⟨concatManifest group, now⟩) (mp4NameOf group) f)
              (mp4NameOf group ++ ".concat.txt"),
            .failed, by simp [hready, hex]⟩
      | ok out =>
        exact ⟨removeFs (List.foldl
              (fun acc ts => if existsFs acc ts = true then removeFs acc ts else acc)
              (writeFs (writeFs fs (mp4NameOf group ++ ".concat.txt")
                ⟨concatManifest group, now⟩) (mp4NameOf group) out) group)
              (mp4NameOf group ++ ".concat.txt"),
            .merged, by simp [hready, hex]⟩
  · exact ⟨fs, .skippedNotReady, by simp [hready]⟩

theorem processGroup_no_raise (now : Int) (fs : Fs) (group : List String) (o : RemuxOutcome)
    (ho : o ≠ .raiseExc) : ∃ fs2 d, processGroup now fs group o = .ok (fs2, d) := by
  unfold processGroup
  by_cases hempty : group.isEmpty
  · exact ⟨fs, .skippedEmpty, by simp [hempty]⟩
  · by_cases hsmall : group.length < MERGE_GROUP_SIZE
    · cases hmt : newest_mtime fs group with
      | none => exact ⟨fs, .skippedVanished, by simp [hempty, hsmall, hmt]⟩
      | some m =>
        by_cases hidle : now - m < MERGE_IDLE_LIMIT
        · exact ⟨fs, .skippedIdle, by simp [hempty, hsmall, hmt, hidle]⟩
        · obtain ⟨fs2, d, hd⟩ := processGroupMerge_no_raise now fs group o ho
          exact ⟨fs2, d, by simp [hempty, hsmall, hmt, hidle, hd]⟩
    · obtain ⟨fs2, d, hd⟩ := processGroupMerge_no_raise now fs group o ho
      exact ⟨fs2, d, by simp [hempty, hsmall, hd]⟩

theorem mergeGo_total (now : Int) (orac : Nat → RemuxOutcome)
    (hnr : ∀ i, orac i ≠ .raiseExc) :
    ∀ (gs : List (List String)) (i : Nat) (fs : Fs) (acc : List GroupDisp),
      ∃ fs2 ds, mergeGo now orac gs i fs acc = .ok (fs2, ds)
        ∧ ds.length = acc.length + gs.length := by
  intro gs
  induction gs with
  | nil => intro i fs acc; exact ⟨fs, acc, rfl, by simp [mergeGo]⟩
  | cons g rest ih =>
    intro i fs acc
    obtain ⟨fsg, d, hd⟩ := processGroup_no_raise now fs g (orac i) (hnr i)
    obtain ⟨fs2, ds, hgo, hlen⟩ := ih (i + 1) fsg (acc ++ [d])
    refine ⟨fs2, ds, ?_, ?_⟩
    · rw [show mergeGo now orac (g :: rest) i fs acc =
        (match processGroup now fs g (orac i) with
          | .error fs2 => .error fs2
          | .ok (fs2, d) => mergeGo now orac rest (i + 1) fs2 (acc ++ [d])) from rfl]
      rw [hd]
      exact hgo
    · simp at hlen ⊢
      omega

/-- C9 (amended): when no window's merge raises an exception — remux
failures with nonzero exit status, missing members and zero-sized members
included — the scan always runs to completion and disposes of every window
(one disposition per window). An exception while preparing or launching a
window's remux, however, propagates out of `merge_ts_to_mp4` and aborts
the remaining windows (see the counterexample for the original claim). -/
theorem merge_scan_examines_all_windows (now : Int) (fs : Fs) (orac : Nat → RemuxOutcome)
    (hnr : ∀ i, orac i ≠ .raiseExc) :
    ∃ fs2 ds, merge_ts_to_mp4 now fs orac = .ok (fs2, ds)
      ∧ ds.length = (groupsOf (ts_listing fs)).length := by
  obtain ⟨fs2, ds, hgo, hlen⟩ :=
    mergeGo_total now orac hnr (groupsOf (ts_listing fs)) 0 fs []
  exact ⟨fs2, ds, hgo, by simpa using hlen⟩

/-- Witness for the amended C9: a scan with a failing (nonzero exit) remux
outcome still disposes of its single window. -/
theorem merge_scan_examines_all_windows_witness :
    ∃ fs2 ds, merge_ts_to_mp4 100 [("a.ts", ⟨[1], 0⟩)] (fun _ => .fail none) = .ok (fs2, ds)
      ∧ ds.length = (groupsOf (ts_listing [("a.ts", ⟨[1], 0⟩)])).length :=
  merge_scan_examines_all_windows 100 [("a.ts", ⟨[1], 0⟩)] (fun _ => .fail none)
    (fun i => by simp)

/-- Counterexample to C9 as stated: six ready segments form two windows; an
exception while preparing/launching the first window's remux aborts the
scan, so the second window — though present and eligible — is never merged
(`f.mp4` is not produced and `f.ts` is still pending). -/
theorem merge_scan_aborted_by_window_exception :
    merge_ts_to_mp4 100
        [("a.ts", ⟨[1], 0⟩), ("b.ts", ⟨[1], 0⟩), ("c.ts", ⟨[1], 0⟩),
         ("d.ts", ⟨[1], 0⟩), ("e.ts", ⟨[1], 0⟩), ("f.ts", ⟨[1], 0⟩)]
        (fun i => if i = 0 then .raiseExc else .ok ⟨[7], 5⟩)
      = .error [("a.ts", ⟨[1], 0⟩), ("b.ts", ⟨[1], 0⟩), ("c.ts", ⟨[1], 0⟩),
         ("d.ts", ⟨[1], 0⟩), ("e.ts", ⟨[1], 0⟩), ("f.ts", ⟨[1], 0⟩)]
    ∧ existsFs [("a.ts", ⟨[1], 0⟩), ("b.ts", ⟨[1], 0⟩), ("c.ts", ⟨[1], 0⟩),
         ("d.ts", ⟨[1], 0⟩), ("e.ts", ⟨[1], 0⟩), ("f.ts", ⟨[1], 0⟩)] "f.mp4" = false
    ∧ existsFs [("a.ts", ⟨[1], 0⟩), ("b.ts", ⟨[1], 0⟩), ("c.ts", ⟨[1], 0⟩),
         ("d.ts", ⟨[1], 0⟩), ("e.ts", ⟨[1], 0⟩), ("f.ts", ⟨[1], 0⟩)] "f.ts" = true :=
  ⟨by rfl, by rfl, by rfl⟩

theorem self_ne_append_part (n : String) : n ≠ n ++ ".part" := by
  intro h
  have hlen := congrArg String.length h
  rw [String.length_append] at hlen
  have h5 : (".part" : String).length = 5 := rfl
  omega

/-- C2: a segment is downloaded to the temporary sibling `<name>.part` and
renamed into place atomically, so in every directory state this entry makes
visible, the final segment name holds either nothing or the full fetched
content — never a partial write; and on any download failure the final
path and the temp path hold nothing afterwards and the derived name is
released from the seen-set so a later poll may retry it. -/
theorem download_atomic_publish (deriveName : String → String) (t : Int) (st : FetchState)
    (ts_url : String) (o : DlOutcome)
    (hseen : st.downloaded_ts.contains (deriveName ts_url) = false)
    (hfinal : lookupFs st.fs (deriveName ts_url) = none)
    (htmp : lookupFs st.fs (deriveName ts_url ++ ".part") = none) :
    (∀ fsi ∈ (processEntry deriveName t st ts_url o).2, ∀ mf,
        lookupFs fsi (deriveName ts_url) = some mf → ∃ d, o = .ok d ∧ mf = ⟨d, t⟩)
    ∧ ((∀ d, o ≠ .ok d) →
        lookupFs (processEntry deriveName t st ts_url o).1.fs (deriveName ts_url) = none
        ∧ lookupFs (processEntry deriveName t st ts_url o).1.fs
            (deriveName ts_url ++ ".part") = none
        ∧ (processEntry deriveName t st ts_url o).1.downloaded_ts.contains
            (deriveName ts_url) = false) := by
  have hex : existsFs st.fs (deriveName ts_url) = false := by
    simp [existsFs, hfinal]
  have hne_tmp : deriveName ts_url ≠ deriveName ts_url ++ ".part" :=
    self_ne_append_part _
  have hnotmem : deriveName ts_url ∉ st.downloaded_ts := by
    simpa using hseen
  cases o with
  | ok data =>
    refine ⟨?_, ?_⟩
    · intro fsi hmem mf hmf
      simp [processEntry, hnotmem, hex] at hmem
      rcases hmem with rfl | rfl
      · rw [lookupFs_writeFs, if_neg hne_tmp, hfinal] at hmf
        cases hmf
      · rw [lookupFs_writeFs, if_pos rfl] at hmf
        exact ⟨data, rfl, (Option.some.injEq _ _ ▸ hmf).symm⟩
    · intro hfail
      exact (hfail data rfl).elim
  | failFetch =>
    refine ⟨?_, ?_⟩
    · intro fsi hmem mf hmf
      cases hlt : st.lastTmp with
      | none =>
        simp [processEntry, hnotmem, hex, hlt] at hmem
        rw [hmem, hfinal] at hmf
        cases hmf
      | some tp =>
        simp [processEntry, hnotmem, hex, hlt] at hmem
        rw [hmem, lookupFs_removeFs] at hmf
        by_cases hn : deriveName ts_url = tp
        · rw [if_pos hn] at hmf
          cases hmf
        · rw [if_neg hn, hfinal] at hmf
          cases hmf
    · intro hfail
      cases hlt : st.lastTmp with
      | none =>
        refine ⟨?_, ?_, ?_⟩
        · simp [processEntry, hnotmem, hex, hlt, hfinal]
        · simp [processEntry, hnotmem, hex, hlt, htmp]
        · simp [processEntry, hnotmem, hex, hlt, hseen, hnotmem]
      | some tp =>
        refine ⟨?_, ?_, ?_⟩
        · simp [processEntry, hnotmem, hex, hlt, lookupFs_removeFs, hfinal]
        · simp [processEntry, hnotmem, hex, hlt, lookupFs_removeFs, htmp]
        · simp [processEntry, hnotmem, hex, hlt, hseen, hnotmem]
  | failWrite bad =>
    refine ⟨?_, ?_⟩
    · intro fsi hmem mf hmf
      simp [processEntry, hnotmem, hex] at hmem
      rcases hmem with rfl | rfl
      · rw [lookupFs_writeFs, if_neg hne_tmp, hfinal] at hmf
        cases hmf
      · rw [lookupFs_removeFs, if_neg hne_tmp, lookupFs_writeFs, if_neg hne_tmp,
          hfinal] at hmf
        cases hmf
    · intro hfail
      refine ⟨?_, ?_, ?_⟩
      · simp [processEntry, hnotmem, hex, lookupFs_removeFs, lookupFs_writeFs,
          hne_tmp, hfinal]
      · simp [processEntry, hnotmem, hex, lookupFs_removeFs]
      · simp [processEntry, hnotmem, hex, hseen, hnotmem]

/-- Witness for C2 at a concrete failing fetch: afterwards neither the
segment name nor its temp sibling exists and the name is not claimed. -/
theorem download_atomic_publish_witness :
    lookupFs (processEntry (fun _ => "x.ts") 5 ⟨[], [], 0, none⟩ "u" .failFetch).1.fs
        "x.ts" = none
    ∧ lookupFs (processEntry (fun _ => "x.ts") 5 ⟨[], [], 0, none⟩ "u" .failFetch).1.fs
        ("x.ts" ++ ".part") = none
    ∧ (processEntry (fun _ => "x.ts") 5 ⟨[], [], 0, none⟩ "u"
        .failFetch).1.downloaded_ts.contains "x.ts" = false :=
  (download_atomic_publish (fun _ => "x.ts") 5 ⟨[], [], 0, none⟩ "u" .failFetch
      rfl rfl rfl).2
    (fun _ h => DlOutcome.noConfusion h)

theorem nonpart_ne_part (m p : String) (hm : endswith m ".part" = false)
    (hp : endswith p ".part" = true) : m ≠ p := by
  intro he
  rw [he, hp] at hm
  cases hm

theorem lookupFs_write_remove (fs : Fs) (nm m : String) (v : MFile) :
    lookupFs (removeFs (writeFs fs nm v) nm) m = if m = nm then none else lookupFs fs m := by
  rw [lookupFs_removeFs]
  by_cases hm : m = nm
  · simp [hm]
  · rw [if_neg hm, if_neg hm, lookupFs_writeFs, if_neg hm]

theorem lookupFs_publish (fs : Fs) (nm tmp m : String) (v : MFile) :
    lookupFs (writeFs (removeFs (writeFs fs tmp v) tmp) nm v) m =
      if m = nm then some v else if m = tmp then none else lookupFs fs m := by
  rw [lookupFs_writeFs]
  by_cases hm1 : m = nm
  · simp [hm1]
  · rw [if_neg hm1, if_neg hm1, lookupFs_write_remove]

theorem processEntry_preserves_inv (dn : String → String) (t : Int) (fs0 : Fs)
    (st : FetchState) (u : String) (o : DlOutcome)
    (hu : endswith (dn u) ".part" = false)
    (hinv : FetchInv fs0 st) :
    FetchInv fs0 (processEntry dn t st u o).1 := by
  obtain ⟨h1, h2, h3, h4⟩ := hinv
  have htp : endswith (dn u ++ ".part") ".part" = true := endswith_append_self _ _
  by_cases hc : dn u ∈ st.downloaded_ts
  · have hst : (processEntry dn t st u o).1 = st := by
      simp [processEntry, hc]
    rw [hst]
    exact ⟨h1, h2, h3, h4⟩
  · by_cases hex : existsFs st.fs (dn u)
    · have hst : (processEntry dn t st u o).1 =
          { st with downloaded_ts := dn u :: st.downloaded_ts } := by
        simp [processEntry, hc, hex]
      rw [hst]
      exact ⟨h1, h2, h3, h4⟩
    · have hexnone : lookupFs st.fs (dn u) = none := by
        cases hl : lookupFs st.fs (dn u) with
        | none => rfl
        | some f => exact absurd (by simp [existsFs, hl]) hex
      cases o with
      | ok data =>
        have hst : (processEntry dn t st u (.ok data)).1 =
            { fs := writeFs (removeFs (writeFs st.fs (dn u ++ ".part") ⟨data, t⟩)
                (dn u ++ ".part")) (dn u) ⟨data, t⟩,
              downloaded_ts := dn u :: st.downloaded_ts,
              new_files := st.new_files + 1,
              lastTmp := some (dn u ++ ".part") } := by
          simp [processEntry, hc, hex]
        rw [hst]
        refine ⟨?_, ?_, ?_, ?_⟩
        · intro tp htp2
          injection htp2 with he
          rw [← he]
          exact htp
        · intro _
          refine ⟨dn u, hu, ?_, ?_⟩
          · cases hf0 : lookupFs fs0 (dn u) with
            | none => rfl
            | some f =>
              exact absurd hexnone (h3 (dn u) hu (by rw [hf0]; exact Option.noConfusion))
          · rw [lookupFs_publish, if_pos rfl]
            exact Option.noConfusion
        · intro m hm hfs0
          rw [lookupFs_publish]
          by_cases hm1 : m = dn u
          · rw [if_pos hm1]
            exact Option.noConfusion
          · rw [if_neg hm1, if_neg (nonpart_ne_part m (dn u ++ ".part") hm htp)]
            exact h3 m hm hfs0
        · intro m _ _
          exact Nat.succ_pos _
      | failFetch =>
        cases hlt : st.lastTmp with
        | none =>
          have hst : (processEntry dn t st u .failFetch).1 =
              { fs := st.fs, downloaded_ts := (dn u :: st.downloaded_ts).erase (dn u),
                new_files := st.new_files, lastTmp := none } := by
            simp [processEntry, hc, hex, hlt]
          rw [hst]
          exact ⟨fun tp h => Option.noConfusion h, h2, h3, h4⟩
        | some tp =>
          have htpp : endswith tp ".part" = true := h1 tp hlt
          have hst : (processEntry dn t st u .failFetch).1 =
              { fs := removeFs st.fs tp,
                downloaded_ts := (dn u :: st.downloaded_ts).erase (dn u),
                new_files := st.new_files, lastTmp := some tp } := by
            simp [processEntry, hc, hex, hlt]
          rw [hst]
          refine ⟨?_, ?_, ?_, ?_⟩
          · intro tp2 h
            injection h with he
            rw [← he]
            exact htpp
          · intro hcount
            obtain ⟨n, hn1, hn2, hn3⟩ := h2 hcount
            refine ⟨n, hn1, hn2, ?_⟩
            rw [lookupFs_removeFs, if_neg (nonpart_ne_part n tp hn1 htpp)]
            exact hn3
          · intro m hm hfs0
            rw [lookupFs_removeFs, if_neg (nonpart_ne_part m tp hm htpp)]
            exact h3 m hm hfs0
          · intro m hm0 hmem
            rw [lookupFs_removeFs] at hmem
            by_cases hmp : m = tp
            · rw [if_pos hmp] at hmem
              exact (hmem rfl).elim
            · rw [if_neg hmp] at hmem
              exact h4 m hm0 hmem
      | failWrite bad =>
        have hst : (processEntry dn t st u (.failWrite bad)).1 =
            { fs := removeFs (writeFs st.fs (dn u ++ ".part") ⟨bad, t⟩) (dn u ++ ".part"),
              downloaded_ts := (dn u :: st.downloaded_ts).erase (dn u),
              new_files := st.new_files, lastTmp := some (dn u ++ ".part") } := by
          simp [processEntry, hc, hex]
        rw [hst]
        refine ⟨?_, ?_, ?_, ?_⟩
        · intro tp2 h
          injection h with he
          rw [← he]
          exact htp
        · intro hcount
          obtain ⟨n, hn1, hn2, hn3⟩ := h2 hcount
          refine ⟨n, hn1, hn2, ?_⟩
          rw [lookupFs_write_remove, if_neg (nonpart_ne_part n (dn u ++ ".part") hn1 htp)]
          exact hn3
        · intro m hm hfs0
          rw [lookupFs_write_remove, if_neg (nonpart_ne_part m (dn u ++ ".part") hm htp)]
          exact h3 m hm hfs0
        · intro m hm0 hmem
          rw [lookupFs_write_remove] at hmem
          by_cases hmp : m = dn u ++ ".part"
          · rw [if_pos hmp] at hmem
            exact (hmem rfl).elim
          · rw [if_neg hmp] at hmem
            exact h4 m hm0 hmem

theorem runEntries_preserves_inv (dn : String → String) (t : Int) (oc : Nat → DlOutcome)
    (fs0 : Fs) :
    ∀ (urls : List String) (i : Nat) (st : FetchState),
      (∀ u ∈ urls, endswith (dn u) ".part" = false) →
      FetchInv fs0 st → FetchInv fs0 (runEntries dn t oc urls i st) := by
  intro urls
  induction urls with
  | nil => intro i st _ h; exact h
  | cons u us ih =>
    intro i st hall hinv
    exact ih (i + 1) _ (fun v hv => hall v (List.mem_cons_of_mem _ hv))
      (processEntry_preserves_inv dn t fs0 st u (oc i) (hall u (List.mem_cons_self _ _)) hinv)

/-- C10: a playlist entry whose derived name is unseen but already on disk
is claimed into the seen-set and skipped with no download, no directory
change and no count increment; the cycle returns `True` exactly when some
file new since the cycle's start was published (i.e. at least one segment
was actually downloaded); and `download_worker` waits 1 second after a
cycle with new files and the full `CHECK_INTERVAL` otherwise. -/
theorem download_cycle_reporting :
    (∀ (dn : String → String) (t : Int) (st : FetchState) (u : String) (o : DlOutcome),
      st.downloaded_ts.contains (dn u) = false → existsFs st.fs (dn u) = true →
      processEntry dn t st u o =
        ({ st with downloaded_ts := dn u :: st.downloaded_ts }, []))
    ∧ (∀ (dn : String → String) (m3u8 : String) (t : Int) (text : String)
        (oc : Nat → DlOutcome) (fs0 : Fs) (seen0 : List String),
        (∀ u ∈ (playlistEntries text).map (resolveUrl m3u8),
          endswith (dn u) ".part" = false) →
        ((download_new_segments dn m3u8 t (some text) oc fs0 seen0).2 = true ↔
          ∃ n, lookupFs fs0 n = none
            ∧ lookupFs (download_new_segments dn m3u8 t (some text) oc fs0 seen0).1.fs
                n ≠ none))
    ∧ worker_wait true = 1 ∧ worker_wait false = CHECK_INTERVAL := by
  refine ⟨?_, ?_, rfl, rfl⟩
  · intro dn t st u o hc hex
    have hnm : dn u ∉ st.downloaded_ts := by simpa using hc
    simp [processEntry, hnm, hex]
  · intro dn m3u8 t text oc fs0 seen0 hp
    have hinv0 : FetchInv fs0
        { fs := fs0, downloaded_ts := seen0, new_files := 0, lastTmp := none } := by
      refine ⟨?_, ?_, ?_, ?_⟩
      · intro tp h
        cases h
      · intro h
        exact absurd h (lt_irrefl 0)
      · intro m _ h
        exact h
      · intro m h1 h2
        exact absurd h1 h2
    obtain ⟨g1, g2, g3, g4⟩ :=
      runEntries_preserves_inv dn t oc fs0 ((playlistEntries text).map (resolveUrl m3u8))
        0 { fs := fs0, downloaded_ts := seen0, new_files := 0, lastTmp := none } hp hinv0
    constructor
    · intro hret
      have hcount : 0 < (runEntries dn t oc ((playlistEntries text).map (resolveUrl m3u8))
          0 { fs := fs0, downloaded_ts := seen0, new_files := 0, lastTmp := none }).new_files := by
        simpa [download_new_segments] using hret
      obtain ⟨n, _, hn2, hn3⟩ := g2 hcount
      exact ⟨n, hn2, by simpa [download_new_segments] using hn3⟩
    · intro hex2
      obtain ⟨n, h0, h1⟩ := hex2
      have h1b : lookupFs (runEntries dn t oc ((playlistEntries text).map (resolveUrl m3u8))
          0 { fs := fs0, downloaded_ts := seen0, new_files := 0, lastTmp := none }).fs n ≠ none := by
        simpa [download_new_segments] using h1
      have := g4 n h0 h1b
      simpa [download_new_segments] using this

/-- Witness for C10: the claimed-existing path at a concrete state, and a
concrete one-entry cycle whose successful download makes the cycle report
`True`. -/
theorem download_cycle_reporting_witness :
    processEntry (fun _ => "x.ts") 0 ⟨[("x.ts", ⟨[1], 0⟩)], [], 0, none⟩ "u" .failFetch
      = ({ fs := [("x.ts", ⟨[1], 0⟩)], downloaded_ts := ["x.ts"], new_files := 0,
           lastTmp := none }, [])
    ∧ (download_new_segments (fun _ => "x.ts") "http://h/x.m3u8" 0 (some "seg1")
        (fun _ => .ok [1]) [] []).2 = true :=
  ⟨download_cycle_reporting.1 (fun _ => "x.ts") 0 ⟨[("x.ts", ⟨[1], 0⟩)], [], 0, none⟩ "u"
      .failFetch rfl rfl,
   (download_cycle_reporting.2.1 (fun _ => "x.ts") "http://h/x.m3u8" 0 "seg1"
      (fun _ => .ok [1]) [] []
      (fun u _ => (by decide : endswith "x.ts" ".part" = false))).mpr
     ⟨"x.ts", rfl, by decide⟩⟩
